import Mathlib

/-!
Shallow embedding of the storage core of the PandoraLauncher backend
(`crates/backend/src/lib.rs`) and of the mod-list child-entry logic of the
frontend (`crates/frontend/src/pages/instance/mods_subpage.rs`).

Paths are modelled as normalized component lists, mirroring how
`std::path::Path` parses a Unix path into `Component`s.  Filesystem state is
a partial map from paths to byte lists; bytes are `Nat`s.
-/

namespace Pandora

/-- A parsed path component, as in `std::path::Component` (Unix: no prefix
component). -/
inductive Component where
  | rootDir
  | curDir
  | parentDir
  | normal (s : String)
deriving DecidableEq, Repr

/-- A path, as its normalized list of components. -/
abbrev RPath := List Component

def Component.isNormal : Component → Bool
  | .normal _ => true
  | _ => false

/-- `Path::file_name`: the final component when it is a normal one. -/
def fileName (p : RPath) : Option String :=
  match p.getLast? with
  | some (.normal s) => some s
  | _ => none

/-- `Path::parent` as a plain component-list truncation (dropping the last
component). -/
def parentPath (p : RPath) : RPath := p.dropLast

/-- Split a reversed character list at the first `.` seen (i.e. the last `.`
of the original file name), returning the reversed extension and reversed
stem.  `none` when the name has no dot at all. -/
def splitRev : List Char → Option (List Char × List Char)
  | [] => none
  | c :: rest =>
    if c = '.' then some ([], rest)
    else (splitRev rest).map (fun pr => (c :: pr.1, pr.2))

/-- `Path::file_stem` / `Path::extension` on a file name, following the std
rule: no extension when there is no embedded dot, or when the only dot is the
leading one of a dot-file. -/
def fileStemExt (s : String) : String × Option String :=
  match splitRev s.toList.reverse with
  | none => (s, none)
  | some (revExt, revStem) =>
    if revStem = [] then (s, none)
    else (String.mk revStem.reverse, some (String.mk revExt.reverse))

/-- `Path::extension`. -/
def extension (p : RPath) : Option String :=
  match fileName p with
  | none => none
  | some f => (fileStemExt f).2

/-- Replace the final component. -/
def replaceLast (p : RPath) (c : Component) : RPath := p.dropLast ++ [c]

/-- `PathBuf::set_extension`: truncate the file name to its stem and append
`.ext` when `ext` is nonempty; no-op on a path without a file name. -/
def setExtension (p : RPath) (ext : String) : RPath :=
  match fileName p with
  | none => p
  | some f =>
    let stem := (fileStemExt f).1
    replaceLast p (.normal (if ext = "" then stem else stem ++ "." ++ ext))

/-- `PathBuf::add_extension`: append `.ext` to the whole file name when `ext`
is nonempty; no-op on a path without a file name. -/
def addExtension (p : RPath) (ext : String) : RPath :=
  if ext = "" then p
  else
    match fileName p with
    | none => p
    | some f => replaceLast p (.normal (f ++ "." ++ ext))

/-- `PathBuf::set_file_name`: pop the file name when there is one, then push
the new name. -/
def setFileName (p : RPath) (name : String) : RPath :=
  match fileName p with
  | some _ => p.dropLast ++ [Component.normal name]
  | none => p ++ [Component.normal name]

/-- `Path::join` with a single plain name. -/
def joinName (p : RPath) (name : String) : RPath := p ++ [Component.normal name]

/-- Split a character list at every `/`. -/
def splitSlashes : List Char → List (List Char)
  | [] => [[]]
  | c :: rest =>
    if c = '/' then [] :: splitSlashes rest
    else
      match splitSlashes rest with
      | t :: ts => (c :: t) :: ts
      | [] => [[c]]

/-- Turn one separator-free token of a path string into its component, where
`.` tokens normalize away (`none`). -/
def tokComp (t : List Char) : Option Component :=
  if t = ['.', '.'] then some .parentDir
  else if t = ['.'] then none
  else some (.normal (String.mk t))

/-- The nonempty separator-free tokens of a path string. -/
def pathTokens (s : String) : List (List Char) :=
  (splitSlashes s.toList).filter (fun t => t ≠ [])

/-- `Path::components` on a Unix path string: split on `/`, drop empty and
`.` tokens (keeping a leading `.` of a relative path as `CurDir`), with a
leading `/` contributing `RootDir`. -/
def parseComponents (s : String) : List Component :=
  if s.toList.head? = some '/' then
    Component.rootDir :: (pathTokens s).filterMap tokComp
  else
    match pathTokens s with
    | t :: _ =>
      if t = ['.'] then Component.curDir :: (pathTokens s).filterMap tokComp
      else (pathTokens s).filterMap tokComp
    | [] => (pathTokens s).filterMap tokComp

/-- `is_single_component_path` (backend/src/lib.rs): peek the first parsed
component — reject when it is not a normal one — then require exactly one
component. -/
def is_single_component_path (s : String) : Bool :=
  let components := parseComponents s
  match components.head? with
  | some first => if !first.isNormal then false else components.length == 1
  | none => components.length == 1

/-- The spec's wording for the validator: the string itself is a single plain
name — nonempty, not a `.`/`..` segment, and containing no separator. -/
def specSinglePlainName (s : String) : Bool :=
  !(s.toList.contains '/') && s ≠ "" && s ≠ "." && s ≠ ".."

/-- One lowercase hex digit, as in the `hex` crate's encoding table. -/
def hexChar (n : Nat) : Char :=
  "0123456789abcdef".toList.getD n '0'

/-- `hex` crate: a byte becomes its high then low nibble. -/
def byteToHex (b : Nat) : List Char :=
  [hexChar ((b >>> 4) % 16), hexChar (b % 16)]

/-- `hex::encode` over a byte list. -/
def hexEncode (bytes : List Nat) : String :=
  String.mk (bytes.map byteToHex).flatten

/-- `create_content_library_path` (backend/src/lib.rs): shard directory from
the first two hex characters, file named by the full hex hash, extension set
with `PathBuf::set_extension`. -/
def create_content_library_path (content_library_dir : RPath)
    (expected_hash : List Nat) (ext : Option String) : RPath :=
  let hash_as_str := hexEncode expected_hash
  let hash_folder := joinName content_library_dir (hash_as_str.take 2)
  let path := joinName hash_folder hash_as_str
  match ext with
  | some e => setExtension path e
  | none => path

/-! SHA-1 (the `sha1` crate's digest), over byte lists, words as `Nat % 2^32`. -/

/-- Rotate a 32-bit word left by `n`. -/
def rotl (n x : Nat) : Nat :=
  ((x <<< n) % 2 ^ 32) ||| (x >>> (32 - n))

/-- Big-endian bytes of a 64-bit value. -/
def be64 (n : Nat) : List Nat :=
  [(n >>> 56) % 256, (n >>> 48) % 256, (n >>> 40) % 256, (n >>> 32) % 256,
   (n >>> 24) % 256, (n >>> 16) % 256, (n >>> 8) % 256, n % 256]

/-- Big-endian bytes of a 32-bit word. -/
def be32 (n : Nat) : List Nat :=
  [(n >>> 24) % 256, (n >>> 16) % 256, (n >>> 8) % 256, n % 256]

/-- SHA-1 padding: `0x80`, zeros to 56 mod 64, then the bit length. -/
def padMessage (msg : List Nat) : List Nat :=
  let k := (119 - (msg.length % 64)) % 64
  msg ++ [0x80] ++ List.replicate k 0 ++ be64 (8 * msg.length)

/-- Big-endian 32-bit words of a byte list. -/
def bytesToWords : List Nat → List Nat
  | b0 :: b1 :: b2 :: b3 :: rest =>
    ((b0 <<< 24) ||| (b1 <<< 16) ||| (b2 <<< 8) ||| b3) :: bytesToWords rest
  | _ => []

/-- Split into 64-byte blocks (with an explicit fuel for structural
recursion; the fuel is the list length, which bounds the block count). -/
def toBlocksAux : Nat → List Nat → List (List Nat)
  | 0, _ => []
  | _, [] => []
  | fuel + 1, l => l.take 64 :: toBlocksAux fuel (l.drop 64)

/-- Split into 64-byte blocks. -/
def toBlocks (l : List Nat) : List (List Nat) :=
  toBlocksAux l.length l

/-- Extend the (reversed) message schedule by `fuel` more words:
`w[i] = rotl1 (w[i-3] ^ w[i-8] ^ w[i-14] ^ w[i-16])`. -/
def extendWords : Nat → List Nat → List Nat
  | 0, rws => rws
  | fuel + 1, rws =>
    let w := rotl 1 ((rws.getD 2 0) ^^^ (rws.getD 7 0) ^^^ (rws.getD 13 0) ^^^ (rws.getD 15 0))
    extendWords fuel (w :: rws)

/-- One SHA-1 round on the five-word state, for round index `i` and schedule
word `w`. -/
def sha1Round (st : Nat × Nat × Nat × Nat × Nat) (i w : Nat) :
    Nat × Nat × Nat × Nat × Nat :=
  let (a, b, c, d, e) := st
  let f :=
    if i < 20 then (b &&& c) ||| ((b ^^^ 0xffffffff) &&& d)
    else if i < 40 then b ^^^ c ^^^ d
    else if i < 60 then (b &&& c) ||| (b &&& d) ||| (c &&& d)
    else b ^^^ c ^^^ d
  let k :=
    if i < 20 then 0x5A827999
    else if i < 40 then 0x6ED9EBA1
    else if i < 60 then 0x8F1BBCDC
    else 0xCA62C1D6
  ((rotl 5 a + f + e + k + w) % 2 ^ 32, a, rotl 30 b, c, d)

/-- Compress one 64-byte block into the hash state. -/
def processBlock (h : Nat × Nat × Nat × Nat × Nat) (block : List Nat) :
    Nat × Nat × Nat × Nat × Nat :=
  let ws := (extendWords 64 (bytesToWords block).reverse).reverse
  let st := ws.enum.foldl (fun st iw => sha1Round st iw.1 iw.2) h
  ((h.1 + st.1) % 2 ^ 32, (h.2.1 + st.2.1) % 2 ^ 32, (h.2.2.1 + st.2.2.1) % 2 ^ 32,
   (h.2.2.2.1 + st.2.2.2.1) % 2 ^ 32, (h.2.2.2.2 + st.2.2.2.2) % 2 ^ 32)

/-- The SHA-1 digest of a byte list, as its 20 bytes. -/
def sha1Bytes (msg : List Nat) : List Nat :=
  let st := (toBlocks (padMessage msg)).foldl processBlock
    (0x67452301, 0xEFCDAB89, 0x98BADCFE, 0x10325476, 0xC3D2E1F0)
  be32 st.1 ++ be32 st.2.1 ++ be32 st.2.2.1 ++ be32 st.2.2.2.1 ++ be32 st.2.2.2.2

/-! Filesystem model: a partial map from paths to byte lists.  Directories
are implicit (`create_dir_all` never changes any file's content). -/

/-- Filesystem state: content observable at each path. -/
def FS := RPath → Option (List Nat)

/-- Point update of a filesystem: put `v` at `p`. -/
def fsUpdate (fs : FS) (p : RPath) (v : Option (List Nat)) : FS :=
  fun q => if q = p then v else fs q

/-- The temporary path of `write_safe`: the destination with the random
suffix and then `new` added as extensions. -/
def tempPath (dest : RPath) (suffix : Nat) : RPath :=
  addExtension (addExtension dest (toString suffix)) "new"

/-- Where `write_safe` can fail or be interrupted: the temp-file creation,
a partial write of the first `k` bytes, the flush/sync, or the rename. -/
inductive WsOutcome where
  | createFail
  | writeFail (k : Nat)
  | syncFail
  | renameFail
  | ok
deriving DecidableEq, Repr

/-- `write_safe` (backend/src/lib.rs): create parent directories (no file
change), write the content to the random-suffixed sibling temp file, sync,
and rename onto the destination; on rename failure remove the temp file and
surface the error.  The outcome parameter selects the failure point; the
result is the error-or-unit result paired with the final filesystem. -/
def write_safe (fs : FS) (path : RPath) (content : List Nat) (suffix : Nat)
    (outcome : WsOutcome) : Except Unit Unit × FS :=
  let temp := tempPath path suffix
  match outcome with
  | .createFail => (.error (), fs)
  | .writeFail k => (.error (), fsUpdate fs temp (some (content.take k)))
  | .syncFail => (.error (), fsUpdate fs temp (some content))
  | .renameFail =>
    let fs1 := fsUpdate fs temp (some content)
    (.error (), fsUpdate fs1 temp none)
  | .ok =>
    let fs1 := fsUpdate fs temp (some content)
    let fs2 := fsUpdate fs1 path (fs1 temp)
    (.ok (), fsUpdate fs2 temp none)

/-- The filesystem states reachable if `write_safe` is cut short anywhere
before the rename: unchanged, or with the temp file holding any prefix of
the content (empty right after creation, all of it after the full write). -/
def midState (fs : FS) (path : RPath) (content : List Nat) (suffix : Nat)
    (fs' : FS) : Prop :=
  fs' = fs ∨ ∃ k, k ≤ content.length ∧
    fs' = fsUpdate fs (tempPath path suffix) (some (content.take k))

/-- `check_sha1_hash` (backend/src/lib.rs): open and hash the file, compare
with the expected digest; opening a missing file is an I/O error. -/
def check_sha1_hash (fs : FS) (path : RPath) (expected_hash : List Nat) :
    Except Unit Bool :=
  match fs path with
  | none => .error ()
  | some bytes => .ok (expected_hash = sha1Bytes bytes : Bool)

/-- The marker-stripping step of `child_state_path`: drop a trailing
`disabled` extension. -/
def stripDisabledMarker (p : RPath) : RPath :=
  if extension p = some "disabled" then setExtension p "" else p

/-- `child_state_path` (backend/src/lib.rs): strip the `.disabled` marker,
then name the sidecar `.<filename>.pandorachildstate` next to the parent. -/
def child_state_path (p : RPath) : Option RPath :=
  match fileName (stripDisabledMarker p) with
  | none => none
  | some filename =>
    some (setFileName (stripDisabledMarker p)
      ("." ++ filename ++ ".pandorachildstate"))

/-! Frontend mod-list child entries
(`frontend/src/pages/instance/mods_subpage.rs`).  Presentation-only fields
(summary, icon, element ids) are omitted. -/

/-- A bundle member row, as built by `ModsListDelegate::set_mods`. -/
structure ModEntryChild where
  path : String
  enabled : Bool
  parent_enabled : Bool
deriving DecidableEq, Repr

/-- The member rows `set_mods` builds for one modpack item: one row per
download under `mods/`, individually enabled when its path is not in the
item's disabled-children set, and carrying the parent's enabled flag. -/
def setModsChildren (disabled_children : List String) (parent_enabled : Bool)
    (downloads : List String) : List ModEntryChild :=
  (downloads.filter (fun p => List.isPrefixOf "mods/".toList p.toList)).map
    (fun p => ModEntryChild.mk p (!(disabled_children.contains p))
      parent_enabled)

/-- `render_child_entry`'s effective state: `enabled && child.parent_enabled`. -/
def visuallyEnabled (child : ModEntryChild) : Bool :=
  child.enabled && child.parent_enabled

/-! Helper lemmas. -/

lemma string_toList_eq_nil {s : String} : s.toList = [] ↔ s = "" := by
  constructor
  · intro h
    have := congrArg String.mk h
    simpa using this
  · intro h
    simp [h]

lemma string_ne_of_toList_ne {s t : String} (h : s.toList ≠ t.toList) : s ≠ t := by
  intro he
  exact h (congrArg String.toList he)

lemma fileName_concat (q : RPath) (f : String) :
    fileName (q ++ [Component.normal f]) = some f := by
  simp [fileName]

lemma eq_dropLast_concat_of_fileName {p : RPath} {f : String}
    (h : fileName p = some f) : p = p.dropLast ++ [Component.normal f] := by
  unfold fileName at h
  cases hl : p.getLast? with
  | none => rw [hl] at h; cases h
  | some c =>
    rw [hl] at h
    cases c with
    | normal s =>
      simp only [Option.some.injEq] at h
      subst h
      exact (List.dropLast_append_getLast? _ hl).symm
    | rootDir => cases h
    | curDir => cases h
    | parentDir => cases h

lemma addExtension_eq {p : RPath} {f : String} (h : fileName p = some f)
    {e : String} (he : e ≠ "") :
    addExtension p e = p.dropLast ++ [Component.normal (f ++ "." ++ e)] := by
  simp [addExtension, he, h, replaceLast]

lemma setFileName_eq {p : RPath} {f : String} (h : fileName p = some f)
    (name : String) :
    setFileName p name = p.dropLast ++ [Component.normal name] := by
  simp [setFileName, h]

lemma splitRev_eq_none {cs : List Char} (h : '.' ∉ cs) : splitRev cs = none := by
  induction cs with
  | nil => rfl
  | cons c rest ih =>
    simp only [List.mem_cons, not_or] at h
    simp [splitRev, Ne.symm h.1, ih h.2]

lemma splitRev_append_dot {xs ys : List Char} (h : '.' ∉ xs) :
    splitRev (xs ++ '.' :: ys) = some (xs, ys) := by
  induction xs with
  | nil => simp [splitRev]
  | cons c rest ih =>
    simp only [List.mem_cons, not_or] at h
    simp [splitRev, Ne.symm h.1, ih h.2]

lemma fileStemExt_of_no_dot {s : String} (h : '.' ∉ s.toList) :
    fileStemExt s = (s, none) := by
  unfold fileStemExt
  rw [splitRev_eq_none (by simpa using h)]

lemma fileStemExt_append_ext {f e : String} (hf : f ≠ "")
    (he : '.' ∉ e.toList) :
    fileStemExt (f ++ "." ++ e) = (f, some e) := by
  unfold fileStemExt
  have hd : (f ++ "." ++ e).toList = f.toList ++ '.' :: e.toList := by
    simp [String.toList, String.data_append]
  rw [hd]
  have hrev : (f.toList ++ '.' :: e.toList).reverse =
      e.toList.reverse ++ '.' :: f.toList.reverse := by
    simp
  rw [hrev, splitRev_append_dot (by simpa using he)]
  have hfl : f.toList ≠ [] := fun hc => hf (string_toList_eq_nil.mp hc)
  have hrn : f.toList.reverse ≠ [] := by simpa using hfl
  simp only [Option.some.injEq]
  rw [if_neg hrn]
  simp only [List.reverse_reverse]
  exact Prod.ext rfl rfl

lemma splitSlashes_no_slash {cs : List Char} (h : '/' ∉ cs) :
    splitSlashes cs = [cs] := by
  induction cs with
  | nil => rfl
  | cons c rest ih =>
    simp only [List.mem_cons, not_or] at h
    simp [splitSlashes, Ne.symm h.1, ih h.2]

lemma single_component_match_iff (l : List Component) :
    (match l.head? with
      | some first => if !first.isNormal then false else l.length == 1
      | none => l.length == 1) = true ↔ ∃ n, l = [Component.normal n] := by
  cases l with
  | nil => simp
  | cons c cs =>
    cases c <;> cases cs <;> simp [Component.isNormal]

lemma parseComponents_of_plain {s : String} (hs : '/' ∉ s.toList) (h0 : s ≠ "")
    (h1 : s ≠ ".") (h2 : s ≠ "..") :
    parseComponents s = [Component.normal s] := by
  have hnl : s.toList ≠ [] := fun hc => h0 (string_toList_eq_nil.mp hc)
  have hss : splitSlashes s.toList = [s.toList] := splitSlashes_no_slash hs
  have hdot : s.toList ≠ ['.'] := by
    intro hc
    exact h1 (congrArg String.mk hc)
  have hdd : s.toList ≠ ['.', '.'] := by
    intro hc
    exact h2 (congrArg String.mk hc)
  have hhead : s.toList.head? ≠ some '/' := by
    cases hl : s.toList with
    | nil => simp
    | cons a t =>
      simp only [List.head?_cons, ne_eq, Option.some.injEq]
      intro hc
      apply hs
      rw [hl, hc]
      exact List.mem_cons_self _ _
  have hte : pathTokens s = [s.toList] := by
    unfold pathTokens
    rw [hss]
    simp only [List.filter_cons, List.filter_nil, ne_eq]
    rw [if_pos (by simpa using hnl)]
  have h4 : tokComp s.toList = some (Component.normal s) := by
    unfold tokComp
    rw [if_neg hdd, if_neg hdot]
    exact rfl
  unfold parseComponents
  rw [if_neg hhead, hte]
  simp only [List.filterMap_cons, h4, List.filterMap_nil, if_neg hdot]

/-- C3, counterexample: `is_single_component_path` accepts `"a/"`, a string
that contains a separator (the spec-side single-plain-name predicate rejects
it), so acceptance is not limited to separator-free strings. -/
theorem is_single_component_path_accepts_trailing_separator :
    is_single_component_path "a/" = true ∧ '/' ∈ "a/".toList ∧
      specSinglePlainName "a/" = false := by
  refine ⟨by decide, by decide, by decide⟩

/-- C3 (amended): `is_single_component_path` returns true exactly when the
string's normalized component sequence (per `std::path` parsing, which drops
redundant and trailing separators and interior `.` segments) is one plain
name component; every separator-free plain name is accepted, `"mod.jar"` is
accepted, and `"../evil.jar"`, `"a/b.jar"` and absolute paths are rejected. -/
theorem is_single_component_path_iff_normalized :
    (∀ s : String, is_single_component_path s = true ↔
      ∃ n, parseComponents s = [Component.normal n]) ∧
    (∀ s : String, specSinglePlainName s = true →
      is_single_component_path s = true) ∧
    is_single_component_path "mod.jar" = true ∧
    is_single_component_path "../evil.jar" = false ∧
    is_single_component_path "a/b.jar" = false ∧
    is_single_component_path "/evil.jar" = false := by
  have hiff : ∀ s : String, is_single_component_path s = true ↔
      ∃ n, parseComponents s = [Component.normal n] := by
    intro s
    unfold is_single_component_path
    exact single_component_match_iff (parseComponents s)
  refine ⟨hiff, ?_, by decide, by decide, by decide, by decide⟩
  intro s h
  simp only [specSinglePlainName, Bool.and_eq_true, Bool.not_eq_true',
    decide_eq_true_eq] at h
  obtain ⟨⟨⟨hs, h0⟩, h1⟩, h2⟩ := h
  refine (hiff s).mpr ⟨s, parseComponents_of_plain ?_ h0 h1 h2⟩
  simpa using hs

/-- C3 witness: the amended characterization applied at `"a/"`. -/
theorem is_single_component_path_iff_normalized_witness :
    is_single_component_path "a/" = true :=
  (is_single_component_path_iff_normalized.1 "a/").mpr ⟨"a", by decide⟩

lemma stripDisabledMarker_of_ext_ne {p : RPath}
    (h : extension p ≠ some "disabled") : stripDisabledMarker p = p := by
  unfold stripDisabledMarker
  rw [if_neg h]

lemma setExtension_empty_eq {p : RPath} {g : String} (h : fileName p = some g) :
    setExtension p "" = p.dropLast ++ [Component.normal (fileStemExt g).1] := by
  simp [setExtension, h, replaceLast]

/-- C5: `child_state_path` yields the same sidecar whether the parent path is
in enabled form or has the `.disabled` marker appended, and the sidecar is
`.<stripped basename>.pandorachildstate` in the parent's directory. -/
theorem child_state_path_toggle_invariant :
    ∀ (p : RPath) (f : String), fileName p = some f → f ≠ "" →
      extension p ≠ some "disabled" →
      child_state_path (addExtension p "disabled") = child_state_path p ∧
      child_state_path p =
        some (p.dropLast ++
          [Component.normal ("." ++ f ++ ".pandorachildstate")]) := by
  intro p f hf hne hext
  have hstrip : stripDisabledMarker p = p := stripDisabledMarker_of_ext_ne hext
  have hrhs : child_state_path p =
      some (p.dropLast ++
        [Component.normal ("." ++ f ++ ".pandorachildstate")]) := by
    unfold child_state_path
    rw [hstrip, hf]
    dsimp only
    rw [setFileName_eq hf]
  refine ⟨?_, hrhs⟩
  have hq : addExtension p "disabled" =
      p.dropLast ++ [Component.normal (f ++ "." ++ "disabled")] :=
    addExtension_eq hf (by decide)
  have hqf : fileName (addExtension p "disabled") =
      some (f ++ "." ++ "disabled") := by
    rw [hq]
    exact fileName_concat _ _
  have hse : fileStemExt (f ++ "." ++ "disabled") = (f, some "disabled") :=
    fileStemExt_append_ext hne (by decide)
  have hqe : extension (addExtension p "disabled") = some "disabled" := by
    unfold extension
    rw [hqf]
    dsimp only
    rw [hse]
  have hstripq : stripDisabledMarker (addExtension p "disabled") =
      p.dropLast ++ [Component.normal f] := by
    unfold stripDisabledMarker
    rw [if_pos hqe, setExtension_empty_eq hqf, hse, hq, List.dropLast_concat]
  unfold child_state_path
  rw [hstripq, hstrip, fileName_concat, hf]
  dsimp only
  rw [setFileName_eq (fileName_concat p.dropLast f), List.dropLast_concat,
    setFileName_eq hf]

/-- C5 witness: the invariance applied to the parent `mod.jar`. -/
theorem child_state_path_toggle_invariant_witness :
    child_state_path (addExtension [Component.normal "mod.jar"] "disabled") =
      child_state_path [Component.normal "mod.jar"] ∧
    child_state_path [Component.normal "mod.jar"] =
      some [Component.normal ".mod.jar.pandorachildstate"] := by
  have h := child_state_path_toggle_invariant [Component.normal "mod.jar"]
    "mod.jar" (by decide) (by decide) (by decide)
  exact ⟨h.1, h.2.trans (by decide)⟩

/-- C10: `child_state_path` returns `none` exactly when the marker-stripped
path has no file-name component (for example a bare root or a path ending in
`..`), and returns the sidecar path whenever a file name remains. -/
theorem child_state_path_none_iff :
    (∀ p : RPath, child_state_path p = none ↔
      fileName (stripDisabledMarker p) = none) ∧
    (∀ (p : RPath) (f : String), fileName (stripDisabledMarker p) = some f →
      child_state_path p =
        some (setFileName (stripDisabledMarker p)
          ("." ++ f ++ ".pandorachildstate"))) ∧
    child_state_path [Component.rootDir] = none ∧
    child_state_path [Component.normal "a", Component.parentDir] = none := by
  refine ⟨?_, ?_, by decide, by decide⟩
  · intro p
    unfold child_state_path
    cases h : fileName (stripDisabledMarker p) <;> simp [h]
  · intro p f h
    unfold child_state_path
    rw [h]

/-- C10 witness: a disabled-form parent still gets its sidecar path. -/
theorem child_state_path_none_iff_witness :
    child_state_path [Component.normal "x.disabled"] =
      some [Component.normal ".x.pandorachildstate"] :=
  (child_state_path_none_iff.2.1 [Component.normal "x.disabled"] "x"
    (by decide)).trans (by decide)

lemma hexChar_ne_dot (n : Nat) : hexChar n ≠ '.' := by
  unfold hexChar
  rcases Nat.lt_or_ge n 16 with h | h
  · interval_cases n <;> decide
  · rw [List.getD_eq_default]
    · decide
    · calc "0123456789abcdef".toList.length = 16 := by decide
        _ ≤ n := h

lemma hexEncode_no_dot (bytes : List Nat) : '.' ∉ (hexEncode bytes).toList := by
  intro hmem
  have : '.' ∈ (bytes.map byteToHex).flatten := hmem
  rw [List.mem_flatten] at this
  obtain ⟨l, hl, hcl⟩ := this
  rw [List.mem_map] at hl
  obtain ⟨b, _, rfl⟩ := hl
  simp only [byteToHex, List.mem_cons, List.not_mem_nil] at hcl
  rcases hcl with h | h | h
  · exact hexChar_ne_dot _ h.symm
  · exact hexChar_ne_dot _ h.symm
  · exact h

lemma hexEncode_length (bytes : List Nat) :
    (hexEncode bytes).toList.length = 2 * bytes.length := by
  show ((bytes.map byteToHex).flatten).length = 2 * bytes.length
  induction bytes with
  | nil => rfl
  | cons b rest ih =>
    simp only [List.map_cons, List.flatten_cons, List.length_append, ih,
      byteToHex, List.length_cons, List.length_nil, List.length_cons]
    omega

/-- The library path, in closed form: shard from the first two hex
characters, the full hex hash as file name, and `.<ext>` appended exactly
when a nonempty extension is supplied. -/
lemma create_content_library_path_eq (dir : RPath) (h : List Nat)
    (ext : Option String) :
    create_content_library_path dir h ext =
      dir ++ [Component.normal ((hexEncode h).take 2)] ++
        [Component.normal (match ext with
          | none => hexEncode h
          | some e => if e = "" then hexEncode h
                      else hexEncode h ++ "." ++ e)] := by
  unfold create_content_library_path joinName
  cases ext with
  | none => simp
  | some e =>
    have hfn : fileName ((dir ++ [Component.normal ((hexEncode h).take 2)]) ++
        [Component.normal (hexEncode h)]) = some (hexEncode h) :=
      fileName_concat _ _
    have hse : fileStemExt (hexEncode h) = (hexEncode h, none) :=
      fileStemExt_of_no_dot (hexEncode_no_dot h)
    simp only [List.append_assoc, List.cons_append, List.nil_append] at hfn ⊢
    unfold setExtension
    rw [hfn]
    dsimp only
    rw [hse]
    unfold replaceLast
    have hdl : (dir ++ [Component.normal ((hexEncode h).take 2),
        Component.normal (hexEncode h)]).dropLast =
        dir ++ [Component.normal ((hexEncode h).take 2)] := by
      rw [show dir ++ [Component.normal ((hexEncode h).take 2),
          Component.normal (hexEncode h)] =
          (dir ++ [Component.normal ((hexEncode h).take 2)]) ++
            [Component.normal (hexEncode h)] by simp]
      exact List.dropLast_concat ..
    rw [hdl]
    by_cases he : e = "" <;> simp [he]

/-- C4, counterexample: with a supplied empty extension the file name is the
bare hex hash — no dot is appended, unlike the claimed
`<hash-hex>.<ext>` shape. -/
theorem create_content_library_path_empty_ext_cex :
    create_content_library_path [] (List.replicate 20 0) (some "") =
      [Component.normal "00",
       Component.normal "0000000000000000000000000000000000000000"] ∧
    ("0000000000000000000000000000000000000000" : String) ≠
      "0000000000000000000000000000000000000000" ++ "." ++ "" := by
  exact ⟨by decide, by decide⟩

/-- C4 (amended): the library path is
`<root>/<first two hex chars>/<hex hash>`, with `.<ext>` appended exactly
when a nonempty extension is supplied (an empty supplied extension leaves
the bare hash name); a 20-byte hash yields 40 hex characters, and the result
is a pure function of the arguments. -/
theorem create_content_library_path_spec :
    ∀ (dir : RPath) (h : List Nat) (ext : Option String),
      create_content_library_path dir h ext =
        dir ++ [Component.normal ((hexEncode h).take 2)] ++
          [Component.normal (match ext with
            | none => hexEncode h
            | some e => if e = "" then hexEncode h
                        else hexEncode h ++ "." ++ e)] ∧
      (h.length = 20 → (hexEncode h).toList.length = 40) :=
  fun dir h ext =>
    ⟨create_content_library_path_eq dir h ext,
     fun hl => by rw [hexEncode_length, hl]⟩

/-- C4 witness: the closed form evaluated at an all-`0xff` hash with a `jar`
extension. -/
theorem create_content_library_path_spec_witness :
    create_content_library_path [] (List.replicate 20 255) (some "jar") =
      [Component.normal "ff",
       Component.normal "ffffffffffffffffffffffffffffffffffffffff.jar"] ∧
    (hexEncode (List.replicate 20 255)).toList.length = 40 := by
  have h := create_content_library_path_spec [] (List.replicate 20 255)
    (some "jar")
  exact ⟨h.1.trans (by decide), h.2 (by decide)⟩

/-! The temporary path of `write_safe` and its relation to the destination. -/

lemma toDigitsCore_ne_nil (b : Nat) :
    ∀ (f n : Nat) (l : List Char), l ≠ [] → Nat.toDigitsCore b f n l ≠ [] := by
  intro f
  induction f with
  | zero =>
    intro n l h
    simpa [Nat.toDigitsCore] using h
  | succ f ih =>
    intro n l h
    simp only [Nat.toDigitsCore]
    split
    · simp
    · exact ih _ _ (by simp)

lemma toString_nat_ne_empty (n : Nat) : toString n ≠ "" := by
  show Nat.repr n ≠ ""
  unfold Nat.repr
  intro hc
  have : Nat.toDigits 10 n = [] := by
    have := congrArg String.toList hc
    simpa [List.asString] using this
  unfold Nat.toDigits at this
  simp only [Nat.toDigitsCore] at this
  revert this
  split
  · simp
  · exact toDigitsCore_ne_nil 10 _ _ _ (by simp)

lemma tempPath_eq {dest : RPath} {f : String} (h : fileName dest = some f)
    (suffix : Nat) :
    tempPath dest suffix =
      dest.dropLast ++
        [Component.normal (f ++ "." ++ toString suffix ++ "." ++ "new")] := by
  unfold tempPath
  rw [addExtension_eq h (toString_nat_ne_empty suffix),
    addExtension_eq (fileName_concat _ _) (by decide : ("new" : String) ≠ ""),
    List.dropLast_concat]

lemma tempPath_ne {dest : RPath} {f : String} (h : fileName dest = some f)
    (suffix : Nat) : tempPath dest suffix ≠ dest := by
  intro hc
  rw [tempPath_eq h suffix] at hc
  conv_rhs at hc => rw [eq_dropLast_concat_of_fileName h]
  have := List.append_cancel_left hc
  simp only [List.cons.injEq, Component.normal.injEq] at this
  have hlen := congrArg (fun s : String => s.toList.length) this.1
  simp only [String.toList, String.data_append] at hlen
  simp at hlen

/-- C9: for a destination with a file name, the temporary path of
`write_safe` extends the destination's file name with the numeric suffix and
a `new` extension, lies in the same parent directory, and is distinct from
the destination — so the concluding rename is between siblings and the
destination itself is never opened for writing. -/
theorem tempPath_distinct_sibling :
    ∀ (dest : RPath) (suffix : Nat) (f : String), fileName dest = some f →
      tempPath dest suffix ≠ dest ∧
      parentPath (tempPath dest suffix) = parentPath dest ∧
      fileName (tempPath dest suffix) =
        some (f ++ "." ++ toString suffix ++ "." ++ "new") := by
  intro dest suffix f h
  refine ⟨tempPath_ne h suffix, ?_, ?_⟩
  · unfold parentPath
    rw [tempPath_eq h suffix, List.dropLast_concat]
  · rw [tempPath_eq h suffix]
    exact fileName_concat _ _

/-- C9 witness: the sibling property at the destination `dir/save.json`. -/
theorem tempPath_distinct_sibling_witness :
    tempPath [Component.normal "dir", Component.normal "save.json"] 7 ≠
      [Component.normal "dir", Component.normal "save.json"] ∧
    parentPath (tempPath [Component.normal "dir",
      Component.normal "save.json"] 7) =
      parentPath [Component.normal "dir", Component.normal "save.json"] ∧
    fileName (tempPath [Component.normal "dir",
      Component.normal "save.json"] 7) =
      some ("save.json" ++ "." ++ toString 7 ++ "." ++ "new") :=
  tempPath_distinct_sibling [Component.normal "dir",
    Component.normal "save.json"] 7 "save.json" (by decide)

/-- The empty filesystem. -/
def fsEmpty : FS := fun _ => none

/-- C1: `write_safe` changes the destination only at the rename: every state
reachable before the rename — unchanged, or with any prefix of the content
in the temp file — shows the destination's pre-write content, every failing
outcome leaves the destination's content unchanged, and after a successful
rename the destination holds exactly the new bytes. -/
theorem write_safe_crash_atomicity :
    ∀ (fs : FS) (path : RPath) (content : List Nat) (suffix : Nat)
      (f : String), fileName path = some f →
      (∀ fs', midState fs path content suffix fs' → fs' path = fs path) ∧
      (∀ o, o ≠ WsOutcome.ok →
        ((write_safe fs path content suffix o).2) path = fs path) ∧
      ((write_safe fs path content suffix .ok).2) path = some content := by
  intro fs path content suffix f hf
  have hne : path ≠ tempPath path suffix := Ne.symm (tempPath_ne hf suffix)
  refine ⟨?_, ?_, ?_⟩
  · rintro fs' (rfl | ⟨k, _, rfl⟩)
    · rfl
    · simp [fsUpdate, hne]
  · intro o ho
    cases o with
    | createFail => rfl
    | writeFail k => simp [write_safe, fsUpdate, hne]
    | syncFail => simp [write_safe, fsUpdate, hne]
    | renameFail => simp [write_safe, fsUpdate, hne]
    | ok => exact absurd rfl ho
  · simp [write_safe, fsUpdate, hne]

/-- C1 witness: a crash after one byte of `[1, 2]` leaves `a.json` absent,
and the successful run leaves it holding `[1, 2]`. -/
theorem write_safe_crash_atomicity_witness :
    midState fsEmpty [Component.normal "a.json"] [1, 2] 0
      (fsUpdate fsEmpty (tempPath [Component.normal "a.json"] 0)
        (some [1])) ∧
    fsUpdate fsEmpty (tempPath [Component.normal "a.json"] 0) (some [1])
      [Component.normal "a.json"] = fsEmpty [Component.normal "a.json"] ∧
    ((write_safe fsEmpty [Component.normal "a.json"] [1, 2] 0 .ok).2)
      [Component.normal "a.json"] = some [1, 2] := by
  have h := write_safe_crash_atomicity fsEmpty [Component.normal "a.json"]
    [1, 2] 0 "a.json" (by decide)
  have hmid : midState fsEmpty [Component.normal "a.json"] [1, 2] 0
      (fsUpdate fsEmpty (tempPath [Component.normal "a.json"] 0)
        (some [1])) :=
    Or.inr ⟨1, by decide, rfl⟩
  exact ⟨hmid, h.1 _ hmid, h.2.2⟩

/-- C7: when the rename fails, `write_safe` returns the error, the temp file
is removed, and the destination content is exactly as before the call. -/
theorem write_safe_rename_failure :
    ∀ (fs : FS) (path : RPath) (content : List Nat) (suffix : Nat)
      (f : String), fileName path = some f →
      (write_safe fs path content suffix .renameFail).1 = .error () ∧
      ((write_safe fs path content suffix .renameFail).2) path = fs path ∧
      ((write_safe fs path content suffix .renameFail).2)
        (tempPath path suffix) = none := by
  intro fs path content suffix f hf
  have hne : path ≠ tempPath path suffix := Ne.symm (tempPath_ne hf suffix)
  exact ⟨rfl, by simp [write_safe, fsUpdate, hne],
    by simp [write_safe, fsUpdate]⟩

/-- C7 witness: rename failure over a filesystem that already holds
`[9]` at `a.json`. -/
theorem write_safe_rename_failure_witness :
    (write_safe (fsUpdate fsEmpty [Component.normal "a.json"] (some [9]))
      [Component.normal "a.json"] [1, 2] 3 .renameFail).1 = .error () ∧
    ((write_safe (fsUpdate fsEmpty [Component.normal "a.json"] (some [9]))
      [Component.normal "a.json"] [1, 2] 3 .renameFail).2)
      [Component.normal "a.json"] =
      fsUpdate fsEmpty [Component.normal "a.json"] (some [9])
        [Component.normal "a.json"] ∧
    ((write_safe (fsUpdate fsEmpty [Component.normal "a.json"] (some [9]))
      [Component.normal "a.json"] [1, 2] 3 .renameFail).2)
      (tempPath [Component.normal "a.json"] 3) = none :=
  write_safe_rename_failure
    (fsUpdate fsEmpty [Component.normal "a.json"] (some [9]))
    [Component.normal "a.json"] [1, 2] 3 "a.json" (by decide)

/-- C2: writing payload `b` through `write_safe` at the library path
computed for `sha1(b)` and then reading that same path returns exactly
`b`. -/
theorem library_store_roundtrip :
    ∀ (dir : RPath) (fs : FS) (b : List Nat) (ext : Option String)
      (suffix : Nat),
      ((write_safe fs (create_content_library_path dir (sha1Bytes b) ext) b
        suffix .ok).2)
        (create_content_library_path dir (sha1Bytes b) ext) = some b := by
  intro dir fs b ext suffix
  have hg : ∃ g, fileName (create_content_library_path dir (sha1Bytes b) ext)
      = some g := by
    rw [create_content_library_path_eq]
    exact ⟨_, fileName_concat _ _⟩
  obtain ⟨g, hg⟩ := hg
  have hne : create_content_library_path dir (sha1Bytes b) ext ≠
      tempPath (create_content_library_path dir (sha1Bytes b) ext) suffix :=
    Ne.symm (tempPath_ne hg suffix)
  simp [write_safe, fsUpdate, hne]

/-- C8: `check_sha1_hash` answers `ok true` exactly when the stored bytes
hash to the expected digest, and an I/O error exactly when the file is
absent. -/
theorem check_sha1_hash_correct :
    ∀ (fs : FS) (p : RPath) (expected : List Nat),
      (∀ b, fs p = some b →
        (check_sha1_hash fs p expected = .ok true ↔
          sha1Bytes b = expected)) ∧
      (check_sha1_hash fs p expected = .error () ↔ fs p = none) := by
  intro fs p expected
  constructor
  · intro b hb
    unfold check_sha1_hash
    rw [hb]
    simp [eq_comm]
  · unfold check_sha1_hash
    cases h : fs p <;> simp

set_option maxRecDepth 100000 in
/-- C8 witness: the empty file hashes to the SHA-1 digest of the empty
message. -/
theorem check_sha1_hash_correct_witness :
    check_sha1_hash (fsUpdate fsEmpty [Component.normal "f"] (some []))
      [Component.normal "f"]
      [0xda, 0x39, 0xa3, 0xee, 0x5e, 0x6b, 0x4b, 0x0d, 0x32, 0x55,
       0xbf, 0xef, 0x95, 0x60, 0x18, 0x90, 0xaf, 0xd8, 0x07, 0x09] =
      .ok true :=
  ((check_sha1_hash_correct
      (fsUpdate fsEmpty [Component.normal "f"] (some []))
      [Component.normal "f"] _).1 [] (by decide)).mpr (by decide)

/-- C6: a member's individual flag is set exactly when its path is absent
from the disabled-member set, the effective (visual) state is the
conjunction with the parent's flag — false whenever the parent is disabled,
the individual flag once it is enabled — and the individual flags do not
depend on the parent's flag. -/
theorem set_mods_child_flags :
    ∀ (disabled_children downloads : List String),
      (∀ (parent_enabled : Bool) (c : ModEntryChild),
        c ∈ setModsChildren disabled_children parent_enabled downloads →
        (c.enabled = true ↔ c.path ∉ disabled_children) ∧
        c.parent_enabled = parent_enabled ∧
        visuallyEnabled c = (c.enabled && parent_enabled) ∧
        (parent_enabled = false → visuallyEnabled c = false) ∧
        (parent_enabled = true → visuallyEnabled c = c.enabled)) ∧
      (setModsChildren disabled_children true downloads).map
          ModEntryChild.enabled =
        (setModsChildren disabled_children false downloads).map
          ModEntryChild.enabled := by
  intro dc dl
  constructor
  · intro pe c hc
    unfold setModsChildren at hc
    rw [List.mem_map] at hc
    obtain ⟨p, hp, rfl⟩ := hc
    refine ⟨by simp, rfl, rfl, ?_, ?_⟩
    · intro h
      simp [visuallyEnabled, h]
    · intro h
      simp [visuallyEnabled, h]
  · unfold setModsChildren
    rw [List.map_map, List.map_map]
    simp [Function.comp]

/-- C6 witness: with `mods/x.jar` in the disabled set and the parent
disabled, the member row is individually disabled and effectively
disabled. -/
theorem set_mods_child_flags_witness :
    ModEntryChild.mk "mods/x.jar" false false ∈
      setModsChildren ["mods/x.jar"] false ["mods/x.jar", "other/z"] ∧
    visuallyEnabled (ModEntryChild.mk "mods/x.jar" false false) = false := by
  have hmem : ModEntryChild.mk "mods/x.jar" false false ∈
      setModsChildren ["mods/x.jar"] false ["mods/x.jar", "other/z"] := by
    decide
  exact ⟨hmem,
    ((set_mods_child_flags ["mods/x.jar"] ["mods/x.jar", "other/z"]).1
      false _ hmem).2.2.2.1 rfl⟩

end Pandora
